import Mathlib

/-!
Verification of the gnatsgo conversion pipeline (stactools-packages/gnatsgo).

The Python sources under `src/stactools/gnatsgo/` are shallowly embedded here:
coordinates are rationals, pandas/GDAL dataframes become explicit lists and
functions, and the two `while` loops of `create_tiles` are modelled with an
explicit fuel parameter (the Python loops have no termination guard, so the
embedding makes the number of allowed iterations explicit; termination of the
source loop corresponds to stabilisation of the result once the fuel is large
enough).
-/

namespace Gnatsgo

/-- Embedding of the `Tile` class of `utils.py`: a rectangular extent in the
source raster's projected coordinates. -/
structure Tile where
  left : ℚ
  bottom : ℚ
  right : ℚ
  top : ℚ
  deriving DecidableEq, Repr

/-- Embedding of the inner `while y < top` loop of `create_tiles`
(`utils.py` lines 334-337): starting from `y`, emit the tile
`Tile(x, y, min(x+size, right), min(y+size, top))` and step `y` by `size`
while `y < top`.  `fuel` bounds the number of iterations. -/
def tileColumn (fuel : ℕ) (x y right top size : ℚ) : List Tile :=
  match fuel with
  | 0 => []
  | Nat.succ f =>
      if y < top then
        ⟨x, y, min (x + size) right, min (y + size) top⟩ ::
          tileColumn f x (y + size) right top size
      else []

/-- Embedding of the outer `while x < right` loop of `create_tiles`
(`utils.py` lines 333-339): for each `x`, run the full inner loop starting
from `y = bottom`, then step `x` by `size`.  The inner loop always restarts
with its own fuel `ifuel`. -/
def tileRows (ifuel fuel : ℕ) (x bottom right top size : ℚ) : List Tile :=
  match fuel with
  | 0 => []
  | Nat.succ f =>
      if x < right then
        tileColumn ifuel x bottom right top size ++
          tileRows ifuel f (x + size) bottom right top size
      else []

/-- Embedding of `create_tiles(left, bottom, right, top, size)`
(`utils.py` lines 329-340), with an explicit iteration bound `fuel` used for
both loops. -/
def create_tiles (fuel : ℕ) (left bottom right top size : ℚ) : List Tile :=
  tileRows fuel fuel left bottom right top size

/-- Every tile emitted by the inner loop sits at `y + j*size` for some step
count `j`, with the loop guard `y + j*size < top` holding and the right/top
edges clipped exactly as in the source. -/
theorem mem_tileColumn {fuel : ℕ} {x y right top size : ℚ} {t : Tile}
    (h : t ∈ tileColumn fuel x y right top size) :
    ∃ j : ℕ, y + j * size < top ∧
      t = ⟨x, y + j * size, min (x + size) right, min (y + j * size + size) top⟩ := by
  induction fuel generalizing y with
  | zero => simp [tileColumn] at h
  | succ f ih =>
    rw [tileColumn] at h
    split at h
    · rcases List.mem_cons.mp h with h1 | h2
      · refine ⟨0, by simpa using ‹y < top›, ?_⟩
        rw [h1]
        norm_num
      · obtain ⟨j, hj, ht⟩ := ih h2
        have e : y + ((j + 1 : ℕ) : ℚ) * size = y + size + (j : ℚ) * size := by
          push_cast; ring
        refine ⟨j + 1, by rw [e]; exact hj, ?_⟩
        rw [ht, e]
    · simp at h

/-- Every tile emitted by the outer loop comes from an inner-loop run started
at `x + i*size` for some step count `i` with the guard `x + i*size < right`. -/
theorem mem_tileRows {ifuel fuel : ℕ} {x bottom right top size : ℚ} {t : Tile}
    (h : t ∈ tileRows ifuel fuel x bottom right top size) :
    ∃ i : ℕ, x + i * size < right ∧
      t ∈ tileColumn ifuel (x + i * size) bottom right top size := by
  induction fuel generalizing x with
  | zero => simp [tileRows] at h
  | succ f ih =>
    rw [tileRows] at h
    split at h
    · rcases List.mem_append.mp h with h1 | h2
      · exact ⟨0, by simpa using ‹x < right›, by simpa using h1⟩
      · obtain ⟨i, hi, ht⟩ := ih h2
        have e : x + ((i + 1 : ℕ) : ℚ) * size = x + size + (i : ℚ) * size := by
          push_cast; ring
        exact ⟨i + 1, by rw [e]; exact hi, by rw [e]; exact ht⟩
    · simp at h

/-- Characterisation of `create_tiles`: every returned tile is the grid bin
at indices `(i, j)`, namely `[left+i*size, min(left+(i+1)*size, right)] ×
[bottom+j*size, min(bottom+(j+1)*size, top)]`, with both loop guards holding. -/
theorem mem_create_tiles {fuel : ℕ} {l b r tp size : ℚ} {t : Tile}
    (h : t ∈ create_tiles fuel l b r tp size) :
    ∃ i j : ℕ, l + i * size < r ∧ b + j * size < tp ∧
      t = ⟨l + i * size, b + j * size, min (l + i * size + size) r,
           min (b + j * size + size) tp⟩ := by
  obtain ⟨i, hi, hcol⟩ := mem_tileRows h
  obtain ⟨j, hj, ht⟩ := mem_tileColumn hcol
  exact ⟨i, j, hi, hj, ht⟩

/-- `t` lies within the raster extent `[left,right] × [bottom,top]`. -/
def Tile.withinExtent (t : Tile) (left bottom right top : ℚ) : Prop :=
  left ≤ t.left ∧ bottom ≤ t.bottom ∧ t.right ≤ right ∧ t.top ≤ top

/-- Two tiles overlap in interior area: their open interiors intersect. -/
def interiorOverlap (t1 t2 : Tile) : Prop :=
  max t1.left t2.left < min t1.right t2.right ∧
  max t1.bottom t2.bottom < min t1.top t2.top

/-- The geometric specification of the tiling produced by `create_tiles`:
containment in the extent, exact clipping of the right/top edges, pairwise
interior-disjointness, and shared boundary coordinates between adjacent
tiles (next column to the right, next row above). -/
def TilingSpec (fuel : ℕ) (l b r tp size : ℚ) : Prop :=
  (∀ t ∈ create_tiles fuel l b r tp size,
      t.withinExtent l b r tp ∧
      t.right = min (t.left + size) r ∧ t.top = min (t.bottom + size) tp) ∧
  (∀ t1 ∈ create_tiles fuel l b r tp size,
    ∀ t2 ∈ create_tiles fuel l b r tp size,
      t1 ≠ t2 → ¬ interiorOverlap t1 t2) ∧
  (∀ t1 ∈ create_tiles fuel l b r tp size,
    ∀ t2 ∈ create_tiles fuel l b r tp size,
      t1.bottom = t2.bottom → t2.left = t1.left + size → t1.right = t2.left) ∧
  (∀ t1 ∈ create_tiles fuel l b r tp size,
    ∀ t2 ∈ create_tiles fuel l b r tp size,
      t1.left = t2.left → t2.bottom = t1.bottom + size → t1.top = t2.bottom)

/-- Separation of grid columns: the clipped right edge of column `i` never
passes the left edge of a later column `i'`. -/
theorem grid_sep {a s r : ℚ} (hs : 0 < s) {i i' : ℕ} (h : i < i') :
    min (a + i * s + s) r ≤ a + i' * s := by
  have h1 : (i : ℚ) + 1 ≤ (i' : ℚ) := by exact_mod_cast h
  have h2 : a + i * s + s ≤ a + i' * s := by nlinarith
  exact le_trans (min_le_left _ _) h2

/-- C1: for every raster extent `(left, bottom, right, top)` with
`left < right` and `bottom < top` and every tile size greater than zero, each
tile returned by `create_tiles` lies within `[left,right] × [bottom,top]`, is
clipped so `tile.right = min(tile.left + size, right)` and
`tile.top = min(tile.bottom + size, top)`, no two distinct tiles overlap in
interior area, and adjacent tiles share exactly one boundary coordinate (the
right edge of a tile equals the left edge of the next tile in its row, and
the top edge equals the bottom edge of the next tile in its column). -/
theorem create_tiles_correct (fuel : ℕ) (l b r tp size : ℚ)
    (hlr : l < r) (hbt : b < tp) (hs : 0 < size) :
    TilingSpec fuel l b r tp size := by
  clear hlr hbt
  refine ⟨?_, ?_, ?_, ?_⟩
  · intro t ht
    obtain ⟨i, j, hi, hj, rfl⟩ := mem_create_tiles ht
    refine ⟨⟨?_, ?_, min_le_right _ _, min_le_right _ _⟩, rfl, rfl⟩
    · have hnn : (0:ℚ) ≤ (i:ℚ) * size := mul_nonneg (Nat.cast_nonneg i) hs.le
      simpa using by linarith
    · have hnn : (0:ℚ) ≤ (j:ℚ) * size := mul_nonneg (Nat.cast_nonneg j) hs.le
      simpa using by linarith
  · intro t1 h1 t2 h2 hne hov
    obtain ⟨i, j, hi, hj, rfl⟩ := mem_create_tiles h1
    obtain ⟨i', j', hi', hj', rfl⟩ := mem_create_tiles h2
    have hx : max (l + (i:ℚ) * size) (l + (i':ℚ) * size) <
        min (min (l + (i:ℚ) * size + size) r) (min (l + (i':ℚ) * size + size) r) :=
      hov.1
    have hy : max (b + (j:ℚ) * size) (b + (j':ℚ) * size) <
        min (min (b + (j:ℚ) * size + size) tp) (min (b + (j':ℚ) * size + size) tp) :=
      hov.2
    rcases lt_trichotomy i i' with hii | hii | hii
    · have hsep := grid_sep (a := l) (r := r) hs hii
      have hA := min_le_left (min (l + (i:ℚ) * size + size) r)
        (min (l + (i':ℚ) * size + size) r)
      have hC := le_max_right (l + (i:ℚ) * size) (l + (i':ℚ) * size)
      linarith
    · subst hii
      rcases lt_trichotomy j j' with hjj | hjj | hjj
      · have hsep := grid_sep (a := b) (r := tp) hs hjj
        have hA := min_le_left (min (b + (j:ℚ) * size + size) tp)
          (min (b + (j':ℚ) * size + size) tp)
        have hC := le_max_right (b + (j:ℚ) * size) (b + (j':ℚ) * size)
        linarith
      · subst hjj
        exact hne rfl
      · have hsep := grid_sep (a := b) (r := tp) hs hjj
        have hA := min_le_right (min (b + (j:ℚ) * size + size) tp)
          (min (b + (j':ℚ) * size + size) tp)
        have hC := le_max_left (b + (j:ℚ) * size) (b + (j':ℚ) * size)
        linarith
    · have hsep := grid_sep (a := l) (r := r) hs hii
      have hA := min_le_right (min (l + (i:ℚ) * size + size) r)
        (min (l + (i':ℚ) * size + size) r)
      have hC := le_max_left (l + (i:ℚ) * size) (l + (i':ℚ) * size)
      linarith
  · intro t1 h1 t2 h2 hbot hadj
    obtain ⟨i, j, hi, hj, rfl⟩ := mem_create_tiles h1
    obtain ⟨i', j', hi', hj', rfl⟩ := mem_create_tiles h2
    have hadj' : l + (i':ℚ) * size = l + (i:ℚ) * size + size := hadj
    have h3 : l + (i:ℚ) * size + size < r := by rw [← hadj']; exact hi'
    show min (l + (i:ℚ) * size + size) r = l + (i':ℚ) * size
    rw [hadj']
    exact min_eq_left h3.le
  · intro t1 h1 t2 h2 hleft hadj
    obtain ⟨i, j, hi, hj, rfl⟩ := mem_create_tiles h1
    obtain ⟨i', j', hi', hj', rfl⟩ := mem_create_tiles h2
    have hadj' : b + (j':ℚ) * size = b + (j:ℚ) * size + size := hadj
    have h3 : b + (j:ℚ) * size + size < tp := by rw [← hadj']; exact hj'
    show min (b + (j:ℚ) * size + size) tp = b + (j':ℚ) * size
    rw [hadj']
    exact min_eq_left h3.le

/-- Witness for C1 at the concrete extent `[0,3] × [0,3]` with tile size 2. -/
theorem create_tiles_correct_witness :
    ((0:ℚ) < 3) ∧ ((0:ℚ) < 3) ∧ ((0:ℚ) < 2) ∧ TilingSpec 5 0 0 3 3 2 :=
  ⟨by norm_num, by norm_num, by norm_num,
    create_tiles_correct 5 0 0 3 3 2 (by norm_num) (by norm_num) (by norm_num)⟩

/-- The inner loop is exhausted after at most `N` steps once
`top ≤ y + N * size`: any fuel of at least `N` yields the same column. -/
theorem tileColumn_stable :
    ∀ (N M : ℕ) (x y right top size : ℚ), top ≤ y + (N : ℚ) * size → N ≤ M →
      tileColumn M x y right top size = tileColumn N x y right top size := by
  intro N
  induction N with
  | zero =>
    intro M x y right top size hN hNM
    have hyt : ¬ y < top := not_lt.mpr (by simpa using hN)
    cases M with
    | zero => rfl
    | succ m => simp only [tileColumn, if_neg hyt]
  | succ n ih =>
    intro M x y right top size hN hNM
    cases M with
    | zero => omega
    | succ m =>
      simp only [tileColumn]
      by_cases hyt : y < top
      · rw [if_pos hyt, if_pos hyt]
        congr 1
        exact ih m x (y + size) right top size (by push_cast at hN ⊢; linarith)
          (Nat.succ_le_succ_iff.mp hNM)
      · rw [if_neg hyt, if_neg hyt]

/-- The outer loop's result does not depend on the inner fuel once the inner
fuel is at least the number `K` of inner steps needed. -/
theorem tileRows_ifuel_stable :
    ∀ (fuel K if1 if2 : ℕ) (x bottom right top size : ℚ),
      top ≤ bottom + (K : ℚ) * size → K ≤ if1 → K ≤ if2 →
      tileRows if1 fuel x bottom right top size =
        tileRows if2 fuel x bottom right top size := by
  intro fuel
  induction fuel with
  | zero => intros; rfl
  | succ f ih =>
    intro K if1 if2 x bottom right top size hK h1 h2
    simp only [tileRows]
    by_cases hxr : x < right
    · rw [if_pos hxr, if_pos hxr,
        tileColumn_stable K if1 x bottom right top size hK h1,
        ← tileColumn_stable K if2 x bottom right top size hK h2,
        ih K if1 if2 (x + size) bottom right top size hK h1 h2]
    · rw [if_neg hxr, if_neg hxr]

/-- The outer loop is exhausted after at most `N` steps once
`right ≤ x + N * size`: any outer fuel of at least `N` yields the same list. -/
theorem tileRows_stable :
    ∀ (N : ℕ) (ifuel M : ℕ) (x bottom right top size : ℚ),
      right ≤ x + (N : ℚ) * size → N ≤ M →
      tileRows ifuel M x bottom right top size =
        tileRows ifuel N x bottom right top size := by
  intro N
  induction N with
  | zero =>
    intro ifuel M x bottom right top size hN hNM
    have hxr : ¬ x < right := not_lt.mpr (by simpa using hN)
    cases M with
    | zero => rfl
    | succ m => simp only [tileRows, if_neg hxr]
  | succ n ih =>
    intro ifuel M x bottom right top size hN hNM
    cases M with
    | zero => omega
    | succ m =>
      simp only [tileRows]
      by_cases hxr : x < right
      · rw [if_pos hxr, if_pos hxr]
        congr 1
        exact ih ifuel m (x + size) bottom right top size
          (by push_cast at hN ⊢; linarith) (Nat.succ_le_succ_iff.mp hNM)
      · rw [if_neg hxr, if_neg hxr]

/-- C10: for every extent and every tile size strictly greater than zero, the
nested loops of `create_tiles` terminate — the fuel-indexed model stabilises
once the fuel is large enough, so the returned list is a fixed finite list —
and the result is the empty list whenever `left ≥ right`. -/
theorem create_tiles_terminates (l b r tp size : ℚ) (hs : 0 < size) :
    (∃ N : ℕ, ∀ M : ℕ, N ≤ M →
        create_tiles M l b r tp size = create_tiles N l b r tp size) ∧
    (∀ fuel : ℕ, r ≤ l → create_tiles fuel l b r tp size = []) := by
  constructor
  · obtain ⟨Nx, hNx⟩ := exists_nat_ge ((r - l) / size)
    obtain ⟨Ny, hNy⟩ := exists_nat_ge ((tp - b) / size)
    refine ⟨max Nx Ny, fun M hM => ?_⟩
    have hxN : r ≤ l + ((max Nx Ny : ℕ) : ℚ) * size := by
      have hc : (Nx : ℚ) ≤ ((max Nx Ny : ℕ) : ℚ) := Nat.cast_le.mpr (le_max_left _ _)
      have h1 : (r - l) / size ≤ ((max Nx Ny : ℕ) : ℚ) := le_trans hNx hc
      have h2 := (div_le_iff hs).mp h1
      linarith
    have hyN : tp ≤ b + ((max Nx Ny : ℕ) : ℚ) * size := by
      have hc : (Ny : ℚ) ≤ ((max Nx Ny : ℕ) : ℚ) := Nat.cast_le.mpr (le_max_right _ _)
      have h1 : (tp - b) / size ≤ ((max Nx Ny : ℕ) : ℚ) := le_trans hNy hc
      have h2 := (div_le_iff hs).mp h1
      linarith
    calc create_tiles M l b r tp size
        = tileRows (max Nx Ny) M l b r tp size :=
          tileRows_ifuel_stable M (max Nx Ny) M (max Nx Ny) l b r tp size hyN hM
            le_rfl
      _ = tileRows (max Nx Ny) (max Nx Ny) l b r tp size :=
          tileRows_stable (max Nx Ny) (max Nx Ny) M l b r tp size hxN hM
      _ = create_tiles (max Nx Ny) l b r tp size := rfl
  · intro fuel hrl
    have hxr : ¬ l < r := not_lt.mpr hrl
    cases fuel with
    | zero => rfl
    | succ f => simp only [create_tiles, tileRows, if_neg hxr]

/-- Witness for C10 at the concrete extent `[0,2] × [0,2]` with tile size 1. -/
theorem create_tiles_terminates_witness :
    ((0:ℚ) < 1) ∧
      ((∃ N : ℕ, ∀ M : ℕ, N ≤ M →
          create_tiles M 0 0 2 2 1 = create_tiles N 0 0 2 2 1) ∧
        (∀ fuel : ℕ, (2:ℚ) ≤ 0 → create_tiles fuel 0 0 2 2 1 = [])) :=
  ⟨by norm_num, create_tiles_terminates 0 0 2 2 1 (by norm_num)⟩

/-- Model of Python `int()` applied to a rational: truncation toward zero. -/
def pyInt (q : ℚ) : ℤ := if q < 0 then ⌈q⌉ else ⌊q⌋

/-- The tile identifier built by `Tile.subset` (`utils.py` lines 352-353):
`f"{base}_{int(left)}_{int(top)}_{int(right)}_{int(bottom)}"`. -/
def Tile.tileId (t : Tile) (base : String) : String :=
  base ++ "_" ++ toString (pyInt t.left) ++ "_" ++ toString (pyInt t.top) ++
    "_" ++ toString (pyInt t.right) ++ "_" ++ toString (pyInt t.bottom)

/-- Embedding of `Tile.subset` (`utils.py` lines 351-363).  It returns the
path of the cloud-optimized GeoTIFF that `cogify` writes, as the list of
components passed to `os.path.join`:
`os.path.join(outdir, tile_id, f"mukey_{tile_id}.tif")`. -/
def Tile.subset (t : Tile) (outdir base : String) : List String :=
  [outdir, t.tileId base, "mukey_" ++ t.tileId base ++ ".tif"]

/-- Model of a raster dataset as used by `tile_image`: its bounds, its nodata
value, and the pixel values read from any requested window. -/
structure Dataset where
  left : ℚ
  bottom : ℚ
  right : ℚ
  top : ℚ
  nodata : ℚ
  read : Tile → List ℚ

/-- One iteration of the loop in `tile_image` (`utils.py` lines 308-316):
read the tile's window with `dataset.read`; if `np.all(td == dataset.nodata)`
the tile is skipped (with a logged notice, producing no file), else
`tile.subset` materialises it as one output raster. -/
def tileStep (d : Dataset) (outdir base : String) (t : Tile) :
    Option (List String) :=
  if !((d.read t).all fun v => decide (v = d.nodata)) then
    some (t.subset outdir base)
  else none

/-- Embedding of `tile_image` (`utils.py` lines 305-316): tile the dataset's
bounds with `create_tiles`, then materialise every non-empty tile.  Returns
the list of output file paths produced. -/
def tile_image (fuel : ℕ) (d : Dataset) (outdir : String) (size : ℚ)
    (basename : String) : List (List String) :=
  (create_tiles fuel d.left d.bottom d.right d.top size).filterMap
    (tileStep d outdir basename)

/-- C7: for every grid cell of the tiling, if every pixel in the cell's
window equals the source raster's nodata value then no output file is
produced for that cell (and no error is raised — the step is total); if at
least one pixel differs from nodata, the cell is materialised as exactly one
output raster, so the number of outputs equals the number of non-nodata
cells. -/
theorem tile_image_skips_nodata (fuel : ℕ) (d : Dataset) (outdir base : String)
    (size : ℚ) :
    (∀ t ∈ create_tiles fuel d.left d.bottom d.right d.top size,
        ((∀ v ∈ d.read t, v = d.nodata) → tileStep d outdir base t = none) ∧
        ((∃ v ∈ d.read t, v ≠ d.nodata) →
          tileStep d outdir base t = some (t.subset outdir base))) ∧
    (tile_image fuel d outdir size base).length =
      ((create_tiles fuel d.left d.bottom d.right d.top size).filter
        (fun t => !((d.read t).all fun v => decide (v = d.nodata)))).length := by
  constructor
  · intro t _
    constructor
    · intro hall
      have hb : ((d.read t).all fun v => decide (v = d.nodata)) = true := by
        rw [List.all_eq_true]
        intro v hv
        exact decide_eq_true (hall v hv)
      simp [tileStep, hb]
    · rintro ⟨v, hv, hne⟩
      have hb : ((d.read t).all fun v => decide (v = d.nodata)) = false := by
        rw [List.all_eq_false]
        exact ⟨v, hv, by simpa using hne⟩
      simp [tileStep, hb]
  · rw [tile_image]
    generalize create_tiles fuel d.left d.bottom d.right d.top size = l
    induction l with
    | nil => rfl
    | cons a l ih =>
      cases hb : ((d.read a).all fun v => decide (v = d.nodata)) with
      | false => simp [List.filterMap_cons, List.filter_cons, tileStep, hb, ih]
      | true => simp [List.filterMap_cons, List.filter_cons, tileStep, hb, ih]

/-- The concrete dataset of the spec's end-to-end scenario: a raster whose
window reads give the single value 5 everywhere, with nodata `-1`. -/
def demoDataset : Dataset :=
  { left := 0, bottom := 0, right := 2, top := 2, nodata := -1,
    read := fun _ => [5] }

/-- An all-nodata dataset on the same bounds. -/
def emptyDataset : Dataset :=
  { left := 0, bottom := 0, right := 2, top := 2, nodata := -1,
    read := fun _ => [-1, -1] }

/-- Witness for C7: on `demoDataset` the single `2 × 2` tile has a pixel
different from nodata and is materialised; on `emptyDataset` the same tile is
all-nodata and skipped. -/
theorem tile_image_skips_nodata_witness :
    ((⟨0, 0, 2, 2⟩ : Tile) ∈
        create_tiles 3 demoDataset.left demoDataset.bottom demoDataset.right
          demoDataset.top 2) ∧
    (∃ v ∈ demoDataset.read ⟨0, 0, 2, 2⟩, v ≠ demoDataset.nodata) ∧
    tileStep demoDataset "out" "conus" ⟨0, 0, 2, 2⟩ =
      some ((⟨0, 0, 2, 2⟩ : Tile).subset "out" "conus") ∧
    (∀ v ∈ emptyDataset.read ⟨0, 0, 2, 2⟩, v = emptyDataset.nodata) ∧
    tileStep emptyDataset "out" "conus" ⟨0, 0, 2, 2⟩ = none := by
  have hmem : (⟨0, 0, 2, 2⟩ : Tile) ∈
      create_tiles 3 demoDataset.left demoDataset.bottom demoDataset.right
        demoDataset.top 2 := by
    norm_num [create_tiles, tileRows, tileColumn, demoDataset]
  have hex : ∃ v ∈ demoDataset.read ⟨0, 0, 2, 2⟩, v ≠ demoDataset.nodata := by
    refine ⟨5, by simp [demoDataset], by norm_num [demoDataset]⟩
  have hall : ∀ v ∈ emptyDataset.read ⟨0, 0, 2, 2⟩, v = emptyDataset.nodata := by
    simp [emptyDataset]
  have hmem2 : (⟨0, 0, 2, 2⟩ : Tile) ∈
      create_tiles 3 emptyDataset.left emptyDataset.bottom emptyDataset.right
        emptyDataset.top 2 := by
    norm_num [create_tiles, tileRows, tileColumn, emptyDataset]
  exact ⟨hmem, hex,
    ((tile_image_skips_nodata 3 demoDataset "out" "conus" 2).1 _ hmem).2 hex,
    hall,
    ((tile_image_skips_nodata 3 emptyDataset "out" "conus" 2).1 _ hmem2).1 hall⟩

/-- The output file name asserted by the spec for a non-empty tile.
Modelled from the spec's words (`{base}_{left}_{top}_{right}_{bottom}.tif`
with integer-rounded coordinates), for comparison against the code's actual
naming in `Tile.subset`. -/
def specTileFileName (t : Tile) (base : String) : String :=
  base ++ "_" ++ toString (pyInt t.left) ++ "_" ++ toString (pyInt t.top) ++
    "_" ++ toString (pyInt t.right) ++ "_" ++ toString (pyInt t.bottom) ++
    ".tif"

/-- C8 counterexample: for the tile `(0, 0, 2, 2)` with base `conus`, the
file produced by `Tile.subset` is not named `conus_0_2_2_0.tif` — the last
component of the written path is `mukey_conus_0_2_2_0.tif`, inside a
directory named `conus_0_2_2_0`. -/
theorem subset_name_counterexample :
    ((⟨0, 0, 2, 2⟩ : Tile).subset "out" "conus").getLast? ≠
        some (specTileFileName ⟨0, 0, 2, 2⟩ "conus") ∧
      ((⟨0, 0, 2, 2⟩ : Tile).subset "out" "conus").getLast? =
        some "mukey_conus_0_2_2_0.tif" := by
  decide

/-- C8 (amended): every output path produced by `tile_image` for a non-empty
tile is `{outdir}/{tile_id}/mukey_{tile_id}.tif`, where
`tile_id = {base}_{left}_{top}_{right}_{bottom}` and the four coordinates are
the integer-rounded (truncated toward zero) bin coordinates in the source's
native projected units, in the order left, top, right, bottom. -/
theorem tile_image_output_names (fuel : ℕ) (d : Dataset) (outdir base : String)
    (size : ℚ) :
    ∀ s ∈ tile_image fuel d outdir size base,
      ∃ t ∈ create_tiles fuel d.left d.bottom d.right d.top size,
        (∃ v ∈ d.read t, v ≠ d.nodata) ∧
        s = [outdir,
              base ++ "_" ++ toString (pyInt t.left) ++ "_" ++
                toString (pyInt t.top) ++ "_" ++ toString (pyInt t.right) ++
                "_" ++ toString (pyInt t.bottom),
              "mukey_" ++
                (base ++ "_" ++ toString (pyInt t.left) ++ "_" ++
                  toString (pyInt t.top) ++ "_" ++ toString (pyInt t.right) ++
                  "_" ++ toString (pyInt t.bottom)) ++ ".tif"] := by
  intro s hs
  obtain ⟨t, ht, hstep⟩ := List.mem_filterMap.mp hs
  refine ⟨t, ht, ?_, ?_⟩
  · rcases hb : ((d.read t).all fun v => decide (v = d.nodata)) with _ | _
    · obtain ⟨v, hv, hnv⟩ := List.all_eq_false.mp hb
      exact ⟨v, hv, by simpa using hnv⟩
    · rw [tileStep, hb] at hstep
      simp at hstep
  · rcases hb : ((d.read t).all fun v => decide (v = d.nodata)) with _ | _
    · rw [tileStep, hb] at hstep
      simp only [Bool.not_false, if_true, Option.some.injEq] at hstep
      rw [← hstep]
      rfl
    · rw [tileStep, hb] at hstep
      simp at hstep

/-- Witness for C8 (amended) on `demoDataset`: the single non-empty tile is
written to `out/conus_0_2_2_0/mukey_conus_0_2_2_0.tif`. -/
theorem tile_image_output_names_witness :
    (["out", "conus_0_2_2_0", "mukey_conus_0_2_2_0.tif"] ∈
        tile_image 3 demoDataset "out" 2 "conus") ∧
      ∃ t ∈ create_tiles 3 demoDataset.left demoDataset.bottom
          demoDataset.right demoDataset.top 2,
        (∃ v ∈ demoDataset.read t, v ≠ demoDataset.nodata) ∧
        ["out", "conus_0_2_2_0", "mukey_conus_0_2_2_0.tif"] =
          ["out",
            "conus" ++ "_" ++ toString (pyInt t.left) ++ "_" ++
              toString (pyInt t.top) ++ "_" ++ toString (pyInt t.right) ++
              "_" ++ toString (pyInt t.bottom),
            "mukey_" ++
              ("conus" ++ "_" ++ toString (pyInt t.left) ++ "_" ++
                toString (pyInt t.top) ++ "_" ++ toString (pyInt t.right) ++
                "_" ++ toString (pyInt t.bottom)) ++ ".tif"] := by
  have hmem : ["out", "conus_0_2_2_0", "mukey_conus_0_2_2_0.tif"] ∈
      tile_image 3 demoDataset "out" 2 "conus" := by
    norm_num [tile_image, create_tiles, tileRows, tileColumn, demoDataset,
      tileStep, Tile.subset, Tile.tileId, pyInt]
    decide
  exact ⟨hmem,
    tile_image_output_names 3 demoDataset "out" "conus" 2 _ hmem⟩

/-! ### Table consolidation: target column types -/

/-- The pandas dtypes resolved by `Table._table_def` (`utils.py` lines
69-143): `Int16`/`Int32`, `float32`, `boolean`, `datetime64`, pandas
`StringDtype`, the open `'category'` dtype, a `CategoricalDtype` with a fixed
value list, and the builtin `int` used by some `astype` overrides in
`constants.py`. -/
inductive Dtype where
  | int16
  | int32
  | float32
  | boolean
  | datetime64
  | string
  | categoryOpen
  | categorical (cats : List String)
  | intAny
  deriving DecidableEq, Repr

/-- The boolean remap dictionary of `Table.concat_table` (`utils.py` lines
208-214). -/
def booleanRemap : List (String × Bool) :=
  [("Yes", true), ("No ", false), ("No", false), ("1  ", true), ("0  ", false)]

/-- `Series.map(dict)` applied to one cell of a boolean-typed column: a
missing value stays missing, a value that is not a key of the dict becomes
missing (pandas maps unmatched values to NaN), and a key is replaced by its
dict value. -/
def mapBooleanCell (v : Option String) : Option Bool :=
  v.bind fun s => booleanRemap.lookup s

/-- The remap applied to every cell of a boolean-typed column. -/
def mapBooleanColumn (col : List (Option String)) : List (Option Bool) :=
  col.map mapBooleanCell

/-- C2: the boolean remap is total and deterministic — `"Yes"` maps to true,
`"No"` and `"No "` map to false, `"1  "` maps to true, `"0  "` maps to
false, and every other value (including null) maps to null; applied to a
whole column it never fails and keeps the column length. -/
theorem boolean_remap_total :
    mapBooleanCell (some "Yes") = some true ∧
    mapBooleanCell (some "No") = some false ∧
    mapBooleanCell (some "No ") = some false ∧
    mapBooleanCell (some "1  ") = some true ∧
    mapBooleanCell (some "0  ") = some false ∧
    mapBooleanCell none = none ∧
    (∀ s : String, s ≠ "Yes" → s ≠ "No" → s ≠ "No " → s ≠ "1  " →
      s ≠ "0  " → mapBooleanCell (some s) = none) ∧
    (∀ col : List (Option String), (mapBooleanColumn col).length = col.length) := by
  refine ⟨rfl, rfl, rfl, rfl, rfl, rfl, ?_, ?_⟩
  · intro s h1 h2 h3 h4 h5
    simp [mapBooleanCell, booleanRemap, List.lookup,
      beq_eq_false_iff_ne.mpr h1, beq_eq_false_iff_ne.mpr h2,
      beq_eq_false_iff_ne.mpr h3, beq_eq_false_iff_ne.mpr h4,
      beq_eq_false_iff_ne.mpr h5]
  · intro col
    simp [mapBooleanColumn]

/-- Witness for C2 at the unmapped literal value `"maybe"`. -/
theorem boolean_remap_total_witness :
    ("maybe" : String) ≠ "Yes" ∧ mapBooleanCell (some "maybe") = none :=
  ⟨by decide, boolean_remap_total.2.2.2.2.2.2.1 "maybe" (by decide) (by decide)
    (by decide) (by decide) (by decide)⟩

/-! ### Region file resolution -/

/-- The `CONUS`/`NON_CONUS` region lists of one product (`constants.py`). -/
structure RegionLists where
  conus : List String
  nonConus : List String
  deriving DecidableEq, Repr

/-- The `gNATSGO` entry of `PRODUCT` (`constants.py` lines 49-56). -/
def gNATSGO : RegionLists :=
  { conus := ["AR", "AZ", "CA", "CO", "FL", "GA", "ID", "KY", "MI", "MN",
      "MS", "MT", "ND", "NH", "NM", "NV", "NY", "OK", "OR", "TN", "TX",
      "UT", "VA", "VT", "WA", "WY"]
    nonConus := ["AK", "PRUSVI"] }

/-- The `gSSURGO` entry of `PRODUCT` (`constants.py` lines 57-64). -/
def gSSURGO : RegionLists :=
  { conus := ["AL", "CT", "DC", "DE", "IA", "IL", "IN", "KS", "LA", "MA",
      "MD", "ME", "MO", "NC", "NE", "NJ", "OH", "PA", "RI", "SC", "SD",
      "WI", "WV"]
    nonConus := ["AS", "FM", "GU", "HI", "MH", "MP", "PW"] }

/-- `PRODUCT` from `constants.py` lines 48-65, in iteration order. -/
def PRODUCT : List (String × RegionLists) :=
  [("gNATSGO", gNATSGO), ("gSSURGO", gSSURGO)]

/-- `os.path.join(self.in_dir, f"{prod}_{reg}.gdb")` (`utils.py` line 43). -/
def gdbPath (in_dir prod reg : String) : String :=
  in_dir ++ "/" ++ prod ++ "_" ++ reg ++ ".gdb"

/-- `_add_files(prod, reglist)` (`utils.py` lines 41-45): one entry per
region in the list.  The Python `dict.update` is modelled as association-list
append; claim C3 shows no key is ever produced twice. -/
def add_files (in_dir prod : String) (reglist : List String) :
    List (String × String) :=
  reglist.map fun reg => (reg, gdbPath in_dir prod reg)

/-- Embedding of `Table._file_list` (`utils.py` lines 38-67): the mapping
from region code to geodatabase path, as a function of the table's
`ssurgo_only` and `partition` flags. -/
def file_list (ssurgo_only partition : Bool) (in_dir : String) :
    List (String × String) :=
  if ssurgo_only then
    (if partition then
        add_files in_dir "gSSURGO" (gNATSGO.conus ++ gSSURGO.conus)
      else add_files in_dir "gSSURGO" ["CONUS"]) ++
      add_files in_dir "gSSURGO" (gNATSGO.nonConus ++ gSSURGO.nonConus)
  else
    (if partition then
        PRODUCT.bind fun p => add_files in_dir p.1 p.2.conus
      else add_files in_dir "gNATSGO" ["CONUS"]) ++
      PRODUCT.bind fun p => add_files in_dir p.1 p.2.nonConus

/-- The 49 CONUS state codes known to either product. -/
def allConusStates : List String := gNATSGO.conus ++ gSSURGO.conus

/-- The 9 non-CONUS region codes known to either product. -/
def allNonConusRegions : List String := gNATSGO.nonConus ++ gSSURGO.nonConus

/-- The region keys of `file_list` do not depend on the input directory:
they are the concatenation of the region lists chosen by the two flags. -/
theorem file_list_keys (ssurgo_only partition : Bool) (in_dir : String) :
    (file_list ssurgo_only partition in_dir).map Prod.fst =
      (if partition then allConusStates else ["CONUS"]) ++ allNonConusRegions := by
  have hmap : ∀ d p l, (add_files d p l).map Prod.fst = l := by
    intro d p l
    induction l with
    | nil => rfl
    | cons a l ih => simpa [add_files] using ih
  cases ssurgo_only <;> cases partition <;>
    simp [file_list, PRODUCT, hmap, allConusStates, allNonConusRegions]

/-- C3: for every combination of the `ssurgo_only` and `partition` flags, the
resolved region-to-file mapping covers every known region exactly once: its
key list is duplicate-free and is a permutation of the full region set — the
49 CONUS state codes plus the 9 non-CONUS region codes when partitioned, the
CONUS aggregate plus the 9 non-CONUS region codes when not. -/
theorem file_list_covers_regions (ssurgo_only partition : Bool)
    (in_dir : String) :
    ((file_list ssurgo_only partition in_dir).map Prod.fst).Nodup ∧
    ((file_list ssurgo_only partition in_dir).map Prod.fst).Perm
      (if partition then allConusStates ++ allNonConusRegions
        else "CONUS" :: allNonConusRegions) ∧
    allConusStates.length = 49 ∧ allNonConusRegions.length = 9 := by
  rw [file_list_keys]
  cases partition <;>
    exact ⟨by decide, by decide, by decide, by decide⟩

/-! ### Column type inference -/

/-- One field definition as inspected through OGR in `Table._table_def`:
`GetName()`, `GetTypeName()` and `GetSubType()` of the field. -/
structure FieldDefn where
  name : String
  typeName : String
  subType : ℤ
  deriving DecidableEq, Repr

/-- The per-column record of the `mdstattabcols` metadata table used by the
type inference: the column's logical data type and its domain name. -/
structure ColumnMeta where
  logicaldatatype : String
  domainname : String
  deriving DecidableEq, Repr

/-- The literal logical-type dict of `Table._table_def` (`utils.py` lines
138-143). -/
def logicalDtypeDict : List (String × Dtype) :=
  [("Boolean", Dtype.boolean), ("Date/Time", Dtype.datetime64),
   ("String", Dtype.string), ("Vtext", Dtype.string)]

/-- Type inference for one field without an override, from `Table._table_def`
(`utils.py` lines 119-143).  `choices` is the `mdstatdomdet` table as
`(domainname, choice)` rows.  `none` models the cases where no dtype is
recorded: a non-numeric field of `valu1` (the `elif` guard skips it), or a
logical type outside the dict (a `KeyError` in the source). -/
def inferDtype (table_name : String) (choices : List (String × String))
    (fd : FieldDefn) (meta : ColumnMeta) : Option Dtype :=
  if fd.typeName = "Integer" then
    if fd.subType = 2 then some Dtype.int16 else some Dtype.int32
  else if fd.typeName = "Real" then some Dtype.float32
  else if table_name ≠ "valu1" then
    if meta.logicaldatatype = "Choice" then
      let cats := (choices.filter fun r => r.1 = meta.domainname).map Prod.snd
      if cats.length ≠ 0 then some (Dtype.categorical cats)
      else some Dtype.categoryOpen
    else logicalDtypeDict.lookup meta.logicaldatatype
  else none

/-- One step of the column loop of `Table._table_def`: a column with an
override already in `astype` is left untouched (`utils.py` line 119), any
other column records the inferred dtype. -/
def tableDefStep (table_name : String) (astype : List (String × Dtype))
    (choices : List (String × String)) (fd : FieldDefn) (meta : ColumnMeta) :
    List (String × Dtype) :=
  if (astype.lookup fd.name).isSome then astype
  else
    match inferDtype table_name choices fd meta with
    | some d => astype ++ [(fd.name, d)]
    | none => astype

/-- C5: for every field without an override type, the inferred dtype is
16-bit signed for an Integer field with the small subtype (2), 32-bit signed
for any other Integer field, 32-bit float for a Real field; otherwise, for
non-`valu1` tables, a fixed-domain categorical when the logical type is
Choice and the domain has enumerated choices, an open categorical when
Choice with no enumerated choices, and boolean / datetime / string for the
Boolean, Date/Time, and String/Vtext logical types respectively. -/
theorem table_def_type_inference (tn : String) (astype : List (String × Dtype))
    (choices : List (String × String)) (fd : FieldDefn) (meta : ColumnMeta) :
    (fd.typeName = "Integer" → fd.subType = 2 →
      inferDtype tn choices fd meta = some Dtype.int16) ∧
    (fd.typeName = "Integer" → fd.subType ≠ 2 →
      inferDtype tn choices fd meta = some Dtype.int32) ∧
    (fd.typeName ≠ "Integer" → fd.typeName = "Real" →
      inferDtype tn choices fd meta = some Dtype.float32) ∧
    (fd.typeName ≠ "Integer" → fd.typeName ≠ "Real" → tn ≠ "valu1" →
      meta.logicaldatatype = "Choice" →
      (((choices.filter fun r => r.1 = meta.domainname).map Prod.snd) ≠ [] →
        inferDtype tn choices fd meta =
          some (Dtype.categorical
            ((choices.filter fun r => r.1 = meta.domainname).map Prod.snd))) ∧
      (((choices.filter fun r => r.1 = meta.domainname).map Prod.snd) = [] →
        inferDtype tn choices fd meta = some Dtype.categoryOpen)) ∧
    (fd.typeName ≠ "Integer" → fd.typeName ≠ "Real" → tn ≠ "valu1" →
      meta.logicaldatatype = "Boolean" →
      inferDtype tn choices fd meta = some Dtype.boolean) ∧
    (fd.typeName ≠ "Integer" → fd.typeName ≠ "Real" → tn ≠ "valu1" →
      meta.logicaldatatype = "Date/Time" →
      inferDtype tn choices fd meta = some Dtype.datetime64) ∧
    (fd.typeName ≠ "Integer" → fd.typeName ≠ "Real" → tn ≠ "valu1" →
      meta.logicaldatatype = "String" →
      inferDtype tn choices fd meta = some Dtype.string) ∧
    (fd.typeName ≠ "Integer" → fd.typeName ≠ "Real" → tn ≠ "valu1" →
      meta.logicaldatatype = "Vtext" →
      inferDtype tn choices fd meta = some Dtype.string) ∧
    ((astype.lookup fd.name).isSome →
      tableDefStep tn astype choices fd meta = astype) ∧
    ((astype.lookup fd.name) = none → ∀ d : Dtype,
      inferDtype tn choices fd meta = some d →
      tableDefStep tn astype choices fd meta = astype ++ [(fd.name, d)]) := by
  refine ⟨?_, ?_, ?_, ?_, ?_, ?_, ?_, ?_, ?_, ?_⟩
  · intro h1 h2
    simp [inferDtype, h1, h2]
  · intro h1 h2
    simp [inferDtype, h1, h2]
  · intro h1 h2
    simp [inferDtype, h1, h2]
  · intro h1 h2 h3 h4
    constructor
    · intro h5
      have hlen : ((choices.filter fun r => r.1 = meta.domainname).map
          Prod.snd).length ≠ 0 := fun hc => h5 (List.length_eq_zero.mp hc)
      simp only [inferDtype, if_neg h1, if_neg h2, if_pos h3, if_pos h4]
      rw [if_pos hlen]
    · intro h5
      simp [inferDtype, h1, h2, h3, h4, h5]
  · intro h1 h2 h3 h4
    simp [inferDtype, h1, h2, h3, h4, logicalDtypeDict]
  · intro h1 h2 h3 h4
    simp [inferDtype, h1, h2, h3, h4, logicalDtypeDict]
    decide
  · intro h1 h2 h3 h4
    simp [inferDtype, h1, h2, h3, h4, logicalDtypeDict]
    decide
  · intro h1 h2 h3 h4
    simp [inferDtype, h1, h2, h3, h4, logicalDtypeDict]
    decide
  · intro h
    simp [tableDefStep, h]
  · intro h d hd
    simp [tableDefStep, h, hd]

/-- Witness for C5: a small-subtype Integer field resolves to `Int16`. -/
theorem table_def_type_inference_witness :
    (("Integer" : String) = "Integer") ∧ ((2 : ℤ) = 2) ∧
      inferDtype "component" [] ⟨"musym", "Integer", 2⟩ ⟨"Choice", "d"⟩ =
        some Dtype.int16 :=
  ⟨rfl, rfl,
    (table_def_type_inference "component" [] [] ⟨"musym", "Integer", 2⟩
      ⟨"Choice", "d"⟩).1 rfl rfl⟩

/-! ### Categorical domain precomputation -/

/-- The tabular data of one table across all its resolved region files:
`regions` is the key order of `self.files`, and `colData r c` is the list of
cell values (null = `none`) of column `c` in region `r`'s geodatabase. -/
structure RegionData where
  regions : List String
  colData : String → String → List (Option String)

/-- The concatenation of a column across all region files, as produced by
`self.concat_table(ignore_fields=ignores)` inside
`_precompute_categoricals`. -/
def concatColumn (rd : RegionData) (c : String) : List (Option String) :=
  rd.regions.bind fun r => rd.colData r c

/-- `pandas.Series.unique()`: distinct values in order of first
appearance. -/
def pdUnique (l : List (Option String)) : List (Option String) :=
  l.foldl (fun acc v => if v ∈ acc then acc else acc ++ [v]) []

/-- The categorical domain computed by `Table._precompute_categoricals`
(`utils.py` lines 157-161) for one open-categorical column:
`categories = list(tmp[c].unique())`, then
`if None in categories: categories.remove(None)`, and the result becomes
`CategoricalDtype(categories)`. -/
def precomputeDomain (rd : RegionData) (c : String) : List (Option String) :=
  let categories := pdUnique (concatColumn rd c)
  if none ∈ categories then categories.erase none else categories

/-- Membership in the running fold of `pdUnique`. -/
theorem mem_pdUnique_aux (v : Option String) :
    ∀ (l acc : List (Option String)),
      v ∈ l.foldl (fun acc w => if w ∈ acc then acc else acc ++ [w]) acc ↔
        v ∈ acc ∨ v ∈ l := by
  intro l
  induction l with
  | nil =>
    intro acc
    simp
  | cons a l ih =>
    intro acc
    rw [List.foldl_cons, ih]
    by_cases ha : a ∈ acc
    · rw [if_pos ha]
      constructor
      · rintro (h | h)
        · exact Or.inl h
        · exact Or.inr (List.mem_cons_of_mem _ h)
      · rintro (h | h)
        · exact Or.inl h
        · rcases List.mem_cons.mp h with rfl | h2
          · exact Or.inl ha
          · exact Or.inr h2
    · rw [if_neg ha]
      simp only [List.mem_append, List.mem_cons, List.mem_singleton]
      tauto

/-- `pdUnique` preserves membership. -/
theorem mem_pdUnique {v : Option String} {l : List (Option String)} :
    v ∈ pdUnique l ↔ v ∈ l := by
  rw [pdUnique, mem_pdUnique_aux]
  simp

/-- The running fold of `pdUnique` keeps the accumulator duplicate-free. -/
theorem pdUnique_nodup_aux :
    ∀ (l acc : List (Option String)), acc.Nodup →
      (l.foldl (fun acc w => if w ∈ acc then acc else acc ++ [w]) acc).Nodup := by
  intro l
  induction l with
  | nil =>
    intro acc h
    simpa using h
  | cons a l ih =>
    intro acc h
    rw [List.foldl_cons]
    by_cases ha : a ∈ acc
    · rw [if_pos ha]
      exact ih acc h
    · rw [if_neg ha]
      refine ih _ ?_
      simp [List.nodup_append, h, ha]

/-- `pdUnique` returns a duplicate-free list. -/
theorem pdUnique_nodup (l : List (Option String)) : (pdUnique l).Nodup :=
  pdUnique_nodup_aux l [] List.nodup_nil

/-- Events of one `Table.concat_table` run (`utils.py` lines 185-241), in
program order: the categorical precomputation, the per-region reads, the
per-region partition writes, and the final single write. -/
inductive TableEvent where
  | precompute
  | readRegion (region : String)
  | writePartition (region : String)
  | writeSingle
  deriving DecidableEq, Repr

/-- The order of effects in `Table.concat_table`: when the table is
partitioned and an output directory is given, `_precompute_categoricals`
runs first (line 191-192); then each region file is read in order and, in
that same mode, immediately written as one partition (lines 194-227); a
single combined write happens at the end in the non-partitioned writing mode
(lines 231-239). -/
def concat_table_trace (rd : RegionData) (partition out_dir : Bool) :
    List TableEvent :=
  (if partition && out_dir then [TableEvent.precompute] else []) ++
    (rd.regions.bind fun r =>
      [TableEvent.readRegion r] ++
        (if out_dir && partition then [TableEvent.writePartition r] else [])) ++
    (if out_dir && !partition then [TableEvent.writeSingle] else [])

/-- C4: for every open-categorical column, the domain computed by
`_precompute_categoricals` contains exactly the non-null values observed in
some region file (so it equals the union over all region files of the
column's observed distinct non-null values, and is a superset of every
single region's observed non-null distinct values), contains no null, and
the computation precedes every partition write in the trace of
`concat_table`. -/
theorem precompute_categoricals_domain (rd : RegionData) (c : String) :
    (∀ v : String, some v ∈ precomputeDomain rd c ↔
        ∃ r ∈ rd.regions, some v ∈ rd.colData r c) ∧
    none ∉ precomputeDomain rd c ∧
    (∀ r ∈ rd.regions, ∀ v : String, some v ∈ rd.colData r c →
        some v ∈ precomputeDomain rd c) ∧
    (∀ i j : ℕ, ∀ reg : String,
        (concat_table_trace rd true true).get? i = some TableEvent.precompute →
        (concat_table_trace rd true true).get? j =
          some (TableEvent.writePartition reg) →
        i < j) := by
  have hmem : ∀ v : String, some v ∈ precomputeDomain rd c ↔
      ∃ r ∈ rd.regions, some v ∈ rd.colData r c := by
    intro v
    have hbase : some v ∈ pdUnique (concatColumn rd c) ↔
        ∃ r ∈ rd.regions, some v ∈ rd.colData r c := by
      rw [mem_pdUnique, concatColumn, List.mem_bind]
    rw [precomputeDomain]
    by_cases hn : (none : Option String) ∈ pdUnique (concatColumn rd c)
    · rw [if_pos hn, List.mem_erase_of_ne (by simp)]
      exact hbase
    · rw [if_neg hn]
      exact hbase
  refine ⟨hmem, ?_, ?_, ?_⟩
  · rw [precomputeDomain]
    by_cases hn : (none : Option String) ∈ pdUnique (concatColumn rd c)
    · rw [if_pos hn]
      intro hcontra
      have := ((pdUnique_nodup (concatColumn rd c)).mem_erase_iff).mp hcontra
      exact this.1 rfl
    · rw [if_neg hn]
      exact hn
  · intro r hr v hv
    exact (hmem v).mpr ⟨r, hr, hv⟩
  · intro i j reg hi hj
    have htr : concat_table_trace rd true true =
        TableEvent.precompute ::
          (rd.regions.bind fun r =>
            [TableEvent.readRegion r, TableEvent.writePartition r]) := by
      simp [concat_table_trace]
    have hnopre : ∀ e ∈ (rd.regions.bind fun r =>
        [TableEvent.readRegion r, TableEvent.writePartition r]),
        e ≠ TableEvent.precompute := by
      intro e he
      obtain ⟨r, _, hr⟩ := List.mem_bind.mp he
      simp only [List.mem_cons, List.not_mem_nil, or_false] at hr
      rcases hr with rfl | rfl <;> simp
    rw [htr] at hi hj
    cases i with
    | zero =>
      cases j with
      | zero =>
        rw [hi] at hj
        simp at hj
      | succ n => exact Nat.succ_pos n
    | succ m =>
      exfalso
      rw [List.get?_cons_succ] at hi
      exact hnopre _ (List.get?_mem hi) rfl

/-- The concrete region data used as witness input for C4: one region `AK`
whose column values are `["a", null]`. -/
def demoRegionData : RegionData :=
  { regions := ["AK"], colData := fun _ _ => [some "a", none] }

/-- Witness for C4 on `demoRegionData`: the observed value `a` of region
`AK` lands in the computed domain. -/
theorem precompute_categoricals_domain_witness :
    ("AK" ∈ demoRegionData.regions) ∧
      (some "a" ∈ demoRegionData.colData "AK" "hzname") ∧
      some "a" ∈ precomputeDomain demoRegionData "hzname" := by
  have h1 : "AK" ∈ demoRegionData.regions := by
    simp [demoRegionData]
  have h2 : some "a" ∈ demoRegionData.colData "AK" "hzname" := by
    simp [demoRegionData]
  exact ⟨h1, h2,
    (precompute_categoricals_domain demoRegionData "hzname").2.2.1 "AK" h1 "a" h2⟩

/-! ### Partitioned writes -/

/-- `all_states` built in `Table._table_def` (`utils.py` lines 75-78): the
concatenation, over the products, of their CONUS and NON_CONUS lists. -/
def all_states : List String := PRODUCT.bind fun p => p.2.conus ++ p.2.nonConus

/-- Python dict assignment `d[k] = v` on an association list: any existing
binding of `k` is replaced (only lookup semantics are modelled; Python keeps
the original key position, which no claim depends on). -/
def dictSet (m : List (String × Dtype)) (k : String) (v : Dtype) :
    List (String × Dtype) :=
  (m.filter fun p => p.1 ≠ k) ++ [(k, v)]

/-- The observable shape of one partitioned parquet write in
`Table.concat_table` (`utils.py` lines 215-227): the name of the appended
partition column, the region code stored in it, the categorical domain the
column is cast to by `astype`, the `partition_on` argument, and the
`column=value` subdirectory produced by the partitioned parquet writer. -/
structure PartitionWrite where
  addedColumn : String
  value : String
  columnDomain : List String
  partitionOn : List String
  subdir : String
  deriving DecidableEq, Repr

/-- One partitioned write for region `reg` (`utils.py` lines 215-227):
`tt['state'] = reg`, `tt = tt.astype(self.astype)` (whose `'state'` entry
carries the categorical domain), and
`to_parquet(..., partition_on=['state'], ...)` which lays the partition out
as a `state=<reg>` subdirectory. -/
def concat_table_write (astype : List (String × Dtype)) (reg : String) :
    PartitionWrite :=
  { addedColumn := "state"
    value := reg
    columnDomain :=
      match astype.lookup "state" with
      | some (Dtype.categorical cs) => cs
      | _ => []
    partitionOn := ["state"]
    subdir := "state=" ++ reg }

/-- The per-region partition writes of `concat_table` for a partitioned
table: `_table_def` first installs
`self.astype['state'] = CategoricalDtype(all_states)` (`utils.py` line 79),
then the loop performs one write per region in order. -/
def concat_table_partition_writes (astype : List (String × Dtype))
    (regions : List String) : List PartitionWrite :=
  regions.map
    (concat_table_write (dictSet astype "state" (Dtype.categorical all_states)))

/-- A Python dict lookup after `d[k] = v` yields `v`. -/
theorem lookup_dictSet (m : List (String × Dtype)) (k : String) (v : Dtype) :
    (dictSet m k v).lookup k = some v := by
  rw [dictSet]
  have haux : ∀ l : List (String × Dtype), (∀ p ∈ l, p.1 ≠ k) →
      (l ++ [(k, v)]).lookup k = some v := by
    intro l hl
    induction l with
    | nil => simp [List.lookup]
    | cons a l ih =>
      obtain ⟨k', v'⟩ := a
      have hk : k' ≠ k := hl (k', v') (List.mem_cons_self _ _)
      rw [List.cons_append, List.lookup]
      have hbeq : (k == k') = false := beq_eq_false_iff_ne.mpr (Ne.symm hk)
      rw [hbeq]
      exact ih fun p hp => hl p (List.mem_cons_of_mem _ hp)
  refine haux _ ?_
  intro p hp
  have := (List.mem_filter.mp hp).2
  simpa using this

/-- C6 counterexample: for a partitioned table with one region `AK`, no
partition write appends a column named `region` or creates a
`region=AK` subdirectory — the column is named `state` and the layout is
`state=AK`. -/
theorem region_column_counterexample :
    (¬ ∃ w ∈ concat_table_partition_writes [] ["AK"],
        w.addedColumn = "region" ∨ w.subdir = "region=" ++ "AK") ∧
      (concat_table_partition_writes [] ["AK"]).map
          (fun w => (w.addedColumn, w.subdir)) =
        [("state", "state=AK")] := by
  constructor
  · rintro ⟨w, hw, hcl⟩
    have hw' : w = concat_table_write
        (dictSet [] "state" (Dtype.categorical all_states)) "AK" := by
      simpa [concat_table_partition_writes] using hw
    rw [hw'] at hcl
    rcases hcl with h | h <;> simp [concat_table_write] at h
  · simp [concat_table_partition_writes, concat_table_write]

/-- C6 (amended): for every partitioned table and every region processed,
the rows written for that region carry an appended `state` categorical
column (the region column) holding the current region code, whose
categorical domain is the fixed union of all known regions of every product,
and the output dataset is physically partitioned on that column with a
`state=<code>` subdirectory per region. -/
theorem partition_writes_state_column (astype : List (String × Dtype))
    (regions : List String) (reg : String) (h : reg ∈ regions) :
    ∃ w ∈ concat_table_partition_writes astype regions,
      w.addedColumn = "state" ∧ w.value = reg ∧
      w.columnDomain = all_states ∧ w.partitionOn = ["state"] ∧
      w.subdir = "state=" ++ reg ∧
      ∀ p ∈ PRODUCT, ∀ r ∈ p.2.conus ++ p.2.nonConus, r ∈ w.columnDomain := by
  refine ⟨concat_table_write (dictSet astype "state"
      (Dtype.categorical all_states)) reg,
    List.mem_map_of_mem _ h, rfl, rfl, ?_, rfl, rfl, ?_⟩
  · show (match (dictSet astype "state"
        (Dtype.categorical all_states)).lookup "state" with
      | some (Dtype.categorical cs) => cs
      | _ => []) = all_states
    rw [lookup_dictSet]
  · intro p hp r hr
    show r ∈ (match (dictSet astype "state"
        (Dtype.categorical all_states)).lookup "state" with
      | some (Dtype.categorical cs) => cs
      | _ => [])
    rw [lookup_dictSet]
    exact List.mem_bind.mpr ⟨p, hp, hr⟩

/-- Witness for C6 (amended) at the single region `AK`. -/
theorem partition_writes_state_column_witness :
    ("AK" ∈ ["AK"]) ∧
      ∃ w ∈ concat_table_partition_writes [] ["AK"],
        w.addedColumn = "state" ∧ w.value = "AK" ∧
        w.columnDomain = all_states ∧ w.partitionOn = ["state"] ∧
        w.subdir = "state=" ++ "AK" ∧
        ∀ p ∈ PRODUCT, ∀ r ∈ p.2.conus ++ p.2.nonConus, r ∈ w.columnDomain :=
  ⟨by simp, partition_writes_state_column [] ["AK"] "AK" (by simp)⟩

/-! ### Schema construction and caching -/

/-- A pyarrow schema as far as `Table._schema` manipulates it: the field
names, the per-field metadata, and the table-level metadata. -/
structure PSchema where
  names : List String
  fieldMeta : List (String × List (String × String))
  tableMeta : List (String × String)
  deriving DecidableEq, Repr

/-- The schema construction of `Table._schema` (`utils.py` lines 170-181)
without the cache check: `pyarrow.Schema.from_pandas(dataframe)` over the
dataframe's columns, the table description attached when present, and each
column's stored metadata attached unless the column starts with `__` or has
no stored metadata. -/
def buildSchema (description : Option String)
    (columnsMeta : List (String × List (String × String)))
    (dfCols : List String) : PSchema :=
  { names := dfCols
    tableMeta :=
      match description with
      | some d => [("description", d)]
      | none => []
    fieldMeta := dfCols.map fun col =>
      (col,
        if ¬ col.startsWith "__" then
          match columnsMeta.lookup col with
          | some m => m
          | none => []
        else []) }

/-- Embedding of `Table._schema` (`utils.py` lines 163-183) with the
`self.schema` cache made explicit: given the cache state, return the schema
handed to the caller together with the new cache state. -/
def Table_schema (description : Option String)
    (columnsMeta : List (String × List (String × String)))
    (cache : Option PSchema) (dfCols : List String) :
    PSchema × Option PSchema :=
  match cache with
  | some s => (s, some s)
  | none =>
    let s := buildSchema description columnsMeta dfCols
    (s, some s)

/-- C9: the schema with attached table-level description and per-column
metadata is built exactly once per table — the first call builds it from its
dataframe argument, and every later call returns that same cached schema
unchanged regardless of the dataframe passed (first write call wins;
idempotent thereafter). -/
theorem schema_built_once (description : Option String)
    (columnsMeta : List (String × List (String × String)))
    (df1 df2 : List String) :
    (Table_schema description columnsMeta none df1).1 =
        buildSchema description columnsMeta df1 ∧
    (Table_schema description columnsMeta
        (Table_schema description columnsMeta none df1).2 df2).1 =
      buildSchema description columnsMeta df1 ∧
    (∀ (s : PSchema) (df : List String),
        Table_schema description columnsMeta (some s) df = (s, some s)) :=
  ⟨rfl, rfl, fun _ _ => rfl⟩

end Gnatsgo
